import Mathlib

/-!
Verification of the daily-memo core of the memos2 repository.

JavaScript strings are modelled as `List Char` (`Str`); `String.prototype.trim`
becomes `jsTrim`, `String.prototype.startsWith` becomes `List.isPrefixOf`, and
`String.prototype.slice(2)` becomes `List.drop 2`.  The external record service
is modelled as an in-memory list of records (`Memo`) together with an explicit
trace of the network operations a call issues (`NetOp`).
-/

namespace Memos2

/-- JS strings, modelled as lists of characters. -/
abbrev Str := List Char

/-- Embed a Lean string literal into the model. -/
def str (s : String) : Str := s.data

/-- The whitespace characters removed by trimming (ASCII fragment of JS trim). -/
def isWs (c : Char) : Bool := c = ' ' || c = '\t' || c = '\n' || c = '\r'

/-- Leading-whitespace removal. -/
def trimLeft (s : Str) : Str := s.dropWhile isWs

/-- Trailing-whitespace removal. -/
def trimRight (s : Str) : Str := (s.reverse.dropWhile isWs).reverse

/-- Model of `String.prototype.trim`. -/
def jsTrim (s : Str) : Str := trimRight (trimLeft s)

/-- `formatTodoContent` from the daily memo service (`dailyMemoService`):
normalizes free text into a checklist line.  Note the case-sensitive
`"- [x]"` check and the absence of a `"* "` bullet branch. -/
def formatTodoContent (content : Str) : Str :=
  let trimmed := jsTrim content
  if (str "- [ ]").isPrefixOf trimmed || (str "- [x]").isPrefixOf trimmed then
    trimmed
  else if (str "- ").isPrefixOf trimmed then
    str "- [ ] " ++ trimmed.drop 2
  else if trimmed.contains '\n' then
    trimmed
  else
    str "- [ ] " ++ trimmed

/-- `formatAsTodo` from `atomicMemoService`: also accepts `"- [X]"` and the
`"* "` bullet, returns empty input unchanged, and has no multi-line branch. -/
def formatAsTodo (content : Str) : Str :=
  let trimmed := jsTrim content
  if trimmed.isEmpty then
    trimmed
  else if (str "- [ ]").isPrefixOf trimmed || (str "- [x]").isPrefixOf trimmed
      || (str "- [X]").isPrefixOf trimmed then
    trimmed
  else if (str "- ").isPrefixOf trimmed then
    str "- [ ] " ++ trimmed.drop 2
  else if (str "* ").isPrefixOf trimmed then
    str "- [ ] " ++ trimmed.drop 2
  else
    str "- [ ] " ++ trimmed

/-! ## Data model: records and the external record service -/

/-- Record visibility levels; `PRIVATE` is the most restrictive. -/
inductive Visibility
  | PRIVATE
  | PROTECTED
  | PUBLIC
deriving DecidableEq

/-- A record held by the external storage collaborator.  `parent` is set for
annotation records; `displayTime` is used by the grouping engine. -/
structure Memo where
  name : Str
  content : Str
  creatorId : Str
  createdTs : Nat
  displayTime : Option Nat := none
  attachments : List Str := []
  visibility : Visibility := .PRIVATE
  parent : Option Str := none
  relations : List Str := []
  location : Option Str := none
deriving DecidableEq

/-- `extractUserIdFromName` regex step: does the scan position start with
`users/` followed by at least one digit?  Returns the captured digit run. -/
def matchUsersId (cs : Str) : Option Str :=
  match cs with
  | 'u' :: 's' :: 'e' :: 'r' :: 's' :: '/' :: rest =>
    let ds := rest.takeWhile Char.isDigit
    if ds.isEmpty then none else some ds
  | _ => none

/-- Scan for the first match of `/users\/(\d+)/`. -/
def extractUserIdAux : Str → Str
  | [] => []
  | c :: rest =>
    match matchUsersId (c :: rest) with
    | some ds => ds
    | none => extractUserIdAux rest

/-- `extractUserIdFromName`: the captured user id, or `""` when absent. -/
def extractUserIdFromName (name : Str) : Str := extractUserIdAux name

/-- `getDailyTitle`: the container title line `"# " + dayKey`. -/
def getDailyTitle (dayKey : Str) : Str := str "# " ++ dayKey

/-- `isDailyMemoForDate`: content-sniffing container detection. -/
def isDailyMemoForDate (m : Memo) (dayKey : Str) : Bool :=
  (getDailyTitle dayKey).isPrefixOf (jsTrim m.content)

/-- The listing the external record service answers for the CEL filter
`creator_id == userId && created_ts >= startTs && created_ts < endTs`. -/
def listMemos (store : List Memo) (userId : Str) (startTs endTs : Nat) : List Memo :=
  store.filter fun m =>
    m.creatorId == userId && decide (startTs ≤ m.createdTs) && decide (m.createdTs < endTs)

/-- `findTodayMemo`: locate the day's container, or `none` (the create signal).
`dayStart` is the epoch second of the local midnight and `dayKey` the formatted
day; the day window is the half-open interval of 86400 seconds. -/
def findTodayMemo (store : List Memo) (creatorName : Str) (dayStart : Nat) (dayKey : Str) :
    Option Memo :=
  let userId := extractUserIdFromName creatorName
  if userId.isEmpty then none
  else (listMemos store userId dayStart (dayStart + 86400)).find? fun m =>
    isDailyMemoForDate m dayKey

/-- The records of `store` that are containers for `(userId, dayKey)`: created
by that user inside the day window and carrying the day's title line. -/
def containersFor (store : List Memo) (userId dayKey : Str) (dayStart : Nat) : List Memo :=
  (listMemos store userId dayStart (dayStart + 86400)).filter fun m =>
    isDailyMemoForDate m dayKey

/-! ## The daily container coordinator (`dailyMemoService.save`) -/

/-- Editor metadata carried by the editor state. -/
structure EditorMetadata where
  attachments : List Str := []
  visibility : Visibility := .PRIVATE
  relations : List Str := []
  location : Option Str := none
deriving DecidableEq

/-- The editor state handed to `save`. -/
structure EditorState where
  content : Str
  localFiles : List Str := []
  metadata : EditorMetadata := {}
deriving DecidableEq

/-- The environment a save runs against: the remote store, the id counter of
the record service, the wall clock, and the resolved day. -/
structure Env where
  store : List Memo
  nextId : Nat
  now : Nat
  dayStart : Nat
  dayKey : Str
deriving DecidableEq

/-- Network operations a call can issue, in order. -/
inductive NetOp
  | upload
  | list
  | update
  | create
deriving DecidableEq

/-- Server-assigned record name for the `n`-th created record. -/
def natName (n : Nat) : Str := str "memos/" ++ (Nat.repr n).data

/-- Result shape of `dailyMemoService.save`. -/
structure DailySaveResult where
  memoName : Str
  hasChanges : Bool
  isNewDaily : Bool
deriving DecidableEq

/-- Full outcome of a daily save: caller-visible result, resulting server
state, and the trace of network operations issued. -/
structure DailyOutcome where
  result : Except Str DailySaveResult
  store : List Memo
  nextId : Nat
  ops : List NetOp

/-- The partial update issued on the append path: field mask
`{content, attachments, update_time}` applied to the record named `name`. -/
def applyUpdateMemo (store : List Memo) (name content : Str) (atts : List Str) : List Memo :=
  store.map fun m =>
    if m.name = name then { m with content := content, attachments := atts } else m

/-- The second half of `dailyMemoService.save`, after the locate round trip:
append to the located container, or create the day's container. -/
def dailyCommit (env : Env) (creatorName : Str) (state : EditorState)
    (allAttachments : List Str) (todayMemo : Option Memo) :
    DailySaveResult × List Memo × Nat × NetOp :=
  match todayMemo with
  | some tm =>
    let formattedContent := formatTodoContent state.content
    let updatedContent := tm.content ++ str "\n" ++ formattedContent
    let mergedAttachments := tm.attachments ++ allAttachments
    (⟨tm.name, true, false⟩,
      applyUpdateMemo env.store tm.name updatedContent mergedAttachments,
      env.nextId, .update)
  | none =>
    let title := getDailyTitle env.dayKey
    let formattedContent := formatTodoContent state.content
    let fullContent := title ++ str "\n\n" ++ formattedContent
    let newMemo : Memo :=
      { name := natName env.nextId
        content := fullContent
        creatorId := extractUserIdFromName creatorName
        createdTs := env.now
        attachments := allAttachments
        visibility := state.metadata.visibility
        relations := state.metadata.relations
        location := state.metadata.location }
    (⟨newMemo.name, true, true⟩, env.store ++ [newMemo], env.nextId + 1, .create)

/-- `dailyMemoService.save`.  `uploadRes` is the upload collaborator's answer
for `state.localFiles` (all-or-nothing).  No blank-content validation and no
key-scoped locking appear anywhere in the source. -/
def dailyMemoSave (env : Env) (uploadRes : Except Str (List Str))
    (state : EditorState) (creatorName : Str) (enableDailyMode : Bool) : DailyOutcome :=
  if !enableDailyMode then
    ⟨.ok ⟨str "", false, false⟩, env.store, env.nextId, []⟩
  else
    match uploadRes with
    | .error e => ⟨.error e, env.store, env.nextId, [.upload]⟩
    | .ok newAttachments =>
      let allAttachments := state.metadata.attachments ++ newAttachments
      let userId := extractUserIdFromName creatorName
      let todayMemo := findTodayMemo env.store creatorName env.dayStart env.dayKey
      let listOps : List NetOp := if userId.isEmpty then [] else [.list]
      let c := dailyCommit env creatorName state allAttachments todayMemo
      ⟨.ok c.1, c.2.1, c.2.2.1, .upload :: (listOps ++ [c.2.2.2])⟩

/-! ## `atomicMemoService.save` -/

/-- Result shape of `atomicMemoService.save`. -/
structure AtomicSaveResult where
  memoNames : List Str
  count : Nat
  hasChanges : Bool
deriving DecidableEq

/-- Full outcome of an atomic save. -/
structure AtomicOutcome where
  result : Except Str AtomicSaveResult
  store : List Memo
  nextId : Nat
  ops : List NetOp

/-- `atomicMemoService.save`: blank content is silently dropped (an empty
success result, not an error) before any network activity. -/
def atomicMemoSave (env : Env) (uploadRes : Except Str (List Str))
    (state : EditorState) (callerId : Str) (enableAtomicMode : Bool) : AtomicOutcome :=
  if !enableAtomicMode then
    ⟨.ok ⟨[], 0, false⟩, env.store, env.nextId, []⟩
  else
    let content := jsTrim state.content
    if content.isEmpty then
      ⟨.ok ⟨[], 0, false⟩, env.store, env.nextId, []⟩
    else
      match uploadRes with
      | .error e => ⟨.error e, env.store, env.nextId, [.upload]⟩
      | .ok newAttachments =>
        let allAttachments := state.metadata.attachments ++ newAttachments
        let formattedContent := formatAsTodo content
        let newMemo : Memo :=
          { name := natName env.nextId
            content := formattedContent
            creatorId := callerId
            createdTs := env.now
            attachments := allAttachments
            visibility := state.metadata.visibility
            relations := state.metadata.relations
            location := state.metadata.location }
        ⟨.ok ⟨[newMemo.name], 1, true⟩, env.store ++ [newMemo], env.nextId + 1,
          [.upload, .create]⟩

/-! ## The grouping engine (`useGroupedMemos`) -/

/-- Scan for non-overlapping occurrences of a literal pattern, left to right
(the semantics of a JS global regex over a literal pattern).  After a match
the next `pat.length - 1` positions are skipped, so matches never overlap. -/
def countOccsSkip (pat : Str) : Nat → Str → Nat
  | _, [] => 0
  | skip + 1, _ :: rest => countOccsSkip pat skip rest
  | 0, c :: rest =>
    if pat.isPrefixOf (c :: rest) then 1 + countOccsSkip pat (pat.length - 1) rest
    else countOccsSkip pat 0 rest

/-- Non-overlapping occurrence count of a literal pattern, scanning left to
right: the length of a JS global-regex match list for a literal pattern. -/
def countOccs (pat s : Str) : Nat := countOccsSkip pat 0 s

/-- `countTasks`: global-regex counts of the incomplete marker `"- [ ]"` and
the complete marker `"- [x]"`, the latter case-insensitive; the i-flag is
modelled by lowercasing the content, which only affects the `x` of this
pattern. -/
def countTasks (m : Memo) : Nat × Nat :=
  (countOccs (str "- [ ]") m.content,
    countOccs (str "- [x]") (m.content.map Char.toLower))

/-- `getMemoDateKey`: the day key of a record's display time, falling back to
today's key.  `fmt` models the `YYYY-MM-DD` formatter and `nowKey` today. -/
def getMemoDateKey (fmt : Nat → Str) (nowKey : Str) (m : Memo) : Str :=
  match m.displayTime with
  | none => nowKey
  | some t => fmt t

/-- One step of the grouping `Map`: push onto an existing bucket, or append a
new bucket at the end (JS `Map` preserves insertion order of keys). -/
def insertBucket (bs : List (Str × List Memo)) (k : Str) (m : Memo) :
    List (Str × List Memo) :=
  match bs with
  | [] => [(k, [m])]
  | (k', ms) :: rest =>
    if k' = k then (k', ms ++ [m]) :: rest else (k', ms) :: insertBucket rest k m

/-- The grouping loop over the input records. -/
def buildBuckets (fmt : Nat → Str) (nowKey : Str) (memos : List Memo) :
    List (Str × List Memo) :=
  memos.foldl (fun bs m => insertBucket bs (getMemoDateKey fmt nowKey m) m) []

/-- Bucket lookup (the `Map.get` of the model). -/
def bucketGet (bs : List (Str × List Memo)) (k : Str) : List Memo :=
  match bs with
  | [] => []
  | (k', ms) :: rest => if k' = k then ms else bucketGet rest k

/-- The keys of the bucket map, in insertion order. -/
def bucketKeys (bs : List (Str × List Memo)) : List Str := bs.map Prod.fst

/-- A `DailyGroup` of the grouping engine. -/
structure DailyGroup where
  date : Str
  displayDate : Str
  fullDate : Str
  memos : List Memo
  incompleteCount : Nat
  completeCount : Nat
deriving DecidableEq

/-- Build one group from a bucket, accumulating the task counters exactly as
the source loop does.  `displayOf` and `fullOf` model the two date label
formatters. -/
def mkGroup (displayOf fullOf : Str → Str) (b : Str × List Memo) : DailyGroup :=
  let counts := b.2.foldl (fun acc m =>
    (acc.1 + (countTasks m).1, acc.2 + (countTasks m).2)) (0, 0)
  { date := b.1
    displayDate := displayOf b.1
    fullDate := fullOf b.1
    memos := b.2
    incompleteCount := counts.1
    completeCount := counts.2 }

/-- Executable lexicographic string comparison by code point: the order
`localeCompare` induces on ISO `YYYY-MM-DD` day keys. -/
def strLeB : Str → Str → Bool
  | [], _ => true
  | _ :: _, [] => false
  | a :: as, b :: bs => if a = b then strLeB as bs else decide (a < b)

/-- The sort comparator `(a, b) => b.date.localeCompare(a.date)`: `a` comes
before `b` when `b.date ≤ a.date` (descending ISO keys). -/
def groupRel (a b : DailyGroup) : Prop := strLeB b.date a.date = true

instance : DecidableRel groupRel :=
  fun a b => inferInstanceAs (Decidable (strLeB b.date a.date = true))

/-- `useGroupedMemos`: bucket by day key, build groups, sort descending. -/
def useGroupedMemos (fmt : Nat → Str) (nowKey : Str) (displayOf fullOf : Str → Str)
    (memos : List Memo) : List DailyGroup :=
  List.insertionSort groupRel ((buildBuckets fmt nowKey memos).map (mkGroup displayOf fullOf))

/-! ## The annotation service (`useAnnotations`) -/

/-- The request `addMutation` sends to `createMemoComment`: parent record
name, raw content, and visibility hard-coded to `PRIVATE`. -/
structure CreateCommentRequest where
  parent : Str
  content : Str
  visibility : Visibility
deriving DecidableEq

/-- Build the create-comment request exactly as `addMutation` does: the text
is passed through unchanged and visibility is forced to `PRIVATE`. -/
def addAnnotationRequest (memoName content : Str) : CreateCommentRequest :=
  { parent := memoName, content := content, visibility := Visibility.PRIVATE }

/-- The record service applying a create-comment request: a new record whose
parent relation points at the request's parent. -/
def applyCreateComment (store : List Memo) (req : CreateCommentRequest)
    (freshName callerId : Str) (now : Nat) : List Memo × Memo :=
  let child : Memo :=
    { name := freshName
      content := req.content
      creatorId := callerId
      createdTs := now
      visibility := req.visibility
      parent := some req.parent }
  (store ++ [child], child)

/-! ## Sequential and racy executions of the coordinator -/

/-- The editor state of a plain text-only save. -/
def mkDailyState (c : Str) : EditorState := { content := c }

/-- One sequential (non-overlapping) save of text `c`, carrying the server
state forward. -/
def stepSave (creatorName : Str) (env : Env) (c : Str) : Env :=
  let o := dailyMemoSave env (.ok []) (mkDailyState c) creatorName true
  { env with store := o.store, nextId := o.nextId }

/-- N sequential saves in call order. -/
def runSaves (creatorName : Str) (env : Env) (contents : List Str) : Env :=
  contents.foldl (stepSave creatorName) env

/-- Join checklist lines with single newlines. -/
def joinLines : List Str → Str
  | [] => []
  | [x] => x
  | x :: y :: xs => x ++ '\n' :: joinLines (y :: xs)

/-- The container record as it stands after saving `processed` in order,
starting from an environment that had no container. -/
def seqContainer (env : Env) (creatorName : Str) (processed : List Str) : Memo :=
  { name := natName env.nextId
    content := getDailyTitle env.dayKey ++ str "\n\n"
      ++ joinLines (processed.map formatTodoContent)
    creatorId := extractUserIdFromName creatorName
    createdTs := env.now }

/-- Two concurrent saves, both suspended after their locate round trip: each
locates against the initial store (seeing no container), then both commit.
This is the interleaving the specification's Scenario D describes; the source
contains no key-scoped lock to prevent it. -/
def racyRun (env : Env) (creatorName : Str) (c1 c2 : Str) : Env :=
  let loc1 := findTodayMemo env.store creatorName env.dayStart env.dayKey
  let loc2 := findTodayMemo env.store creatorName env.dayStart env.dayKey
  let r1 := dailyCommit env creatorName (mkDailyState c1) [] loc1
  let env1 : Env := { env with store := r1.2.1, nextId := r1.2.2.1 }
  let r2 := dailyCommit env1 creatorName (mkDailyState c2) [] loc2
  { env1 with store := r2.2.1, nextId := r2.2.2.1 }

/-- The normalizer algorithm exactly as the specification describes it:
unchanged when the trimmed text starts with `"- [ ]"` or a case-insensitive
`"- [x]"`; bullet replacement for both `"- "` and `"* "`; multi-line input
unchanged; otherwise prefixed.  Stated only to compare with the source
function `formatTodoContent`. -/
def claimedDailyNormalize (content : Str) : Str :=
  let trimmed := jsTrim content
  if (str "- [ ]").isPrefixOf trimmed
      || (str "- [x]").isPrefixOf (trimmed.map Char.toLower) then
    trimmed
  else if (str "- ").isPrefixOf trimmed || (str "* ").isPrefixOf trimmed then
    str "- [ ] " ++ trimmed.drop 2
  else if trimmed.contains '\n' then
    trimmed
  else
    str "- [ ] " ++ trimmed

/-- A concrete record list used to evaluate the grouping engine: one record
displayed on an earlier day, one without display time (today). -/
def sampleMemos : List Memo :=
  [{ name := str "a", content := str "- [ ] x", creatorId := str "1",
     createdTs := 0, displayTime := some 0 },
   { name := str "b", content := str "- [x] y\n- [ ] z", creatorId := str "1",
     createdTs := 0 }]

/-- The group the engine produces for today's key on `sampleMemos`. -/
def sampleGroup : DailyGroup :=
  { date := str "2026-01-02"
    displayDate := str "2026-01-02"
    fullDate := str "2026-01-02"
    memos := [{ name := str "b", content := str "- [x] y\n- [ ] z",
                creatorId := str "1", createdTs := 0 }]
    incompleteCount := 1
    completeCount := 1 }

/-! ## Lemmas about `jsTrim` -/

example : formatTodoContent (str "开会讨论需求") = str "- [ ] 开会讨论需求" := by decide
example : formatTodoContent (str "- task") = str "- [ ] task" := by decide
example : formatTodoContent (str "* task") = str "- [ ] * task" := by decide
example : formatAsTodo (str "* task") = str "- [ ] task" := by decide
example : formatTodoContent (str "") = str "- [ ] " := by decide
example : extractUserIdFromName (str "users/42") = str "42" := by decide
example : extractUserIdFromName (str "nobody") = str "" := by decide

theorem head?_dropWhile_isWs_false {l : Str} {a : Char}
    (h : (l.dropWhile isWs).head? = some a) : isWs a = false := by
  induction l with
  | nil => simp at h
  | cons c cs ih =>
    rw [List.dropWhile_cons] at h
    by_cases hc : isWs c
    · simp only [hc, if_true] at h
      exact ih h
    · have hc' : isWs c = false := Bool.eq_false_iff.mpr hc
      rw [hc'] at h
      simp only [Bool.false_eq_true, if_false, List.head?_cons, Option.some.injEq] at h
      subst h
      exact hc'

theorem dropWhile_cons_of_neg {c : Char} {cs : Str} (h : isWs c = false) :
    (c :: cs).dropWhile isWs = c :: cs := by
  simp [List.dropWhile_cons, h]

/-- A string whose first and last characters are not whitespace is unchanged
by trimming. -/
theorem jsTrim_eq_self {s : Str} {a b : Char}
    (hhead : s.head? = some a) (ha : isWs a = false)
    (hlast : s.getLast? = some b) (hb : isWs b = false) :
    jsTrim s = s := by
  obtain ⟨t, rfl⟩ : ∃ t, s = a :: t := by
    cases s with
    | nil => simp at hhead
    | cons x xs =>
      have hx : x = a := by simpa using hhead
      exact ⟨xs, by rw [hx]⟩
  have h1 : trimLeft (a :: t) = a :: t := dropWhile_cons_of_neg ha
  rw [jsTrim, h1, trimRight]
  have hrev : (a :: t).reverse.head? = some b := by
    rw [List.head?_reverse]; exact hlast
  obtain ⟨u, hu⟩ : ∃ u, (a :: t).reverse = b :: u := by
    cases hc : (a :: t).reverse with
    | nil => rw [hc] at hrev; simp at hrev
    | cons x xs =>
      rw [hc] at hrev
      simp only [List.head?_cons, Option.some.injEq] at hrev
      exact ⟨xs, by rw [hrev]⟩
  rw [hu, dropWhile_cons_of_neg hb, ← hu, List.reverse_reverse]

/-- The head of a trimmed string is not whitespace. -/
theorem jsTrim_head_not_ws {s : Str} {a : Char} (h : (jsTrim s).head? = some a) :
    isWs a = false := by
  rw [jsTrim, trimRight] at h
  set w := (trimLeft s).reverse.dropWhile isWs with hw
  have hpre : w.reverse <+: (trimLeft s).reverse.reverse :=
    List.reverse_prefix.mpr (List.dropWhile_suffix isWs)
  rw [List.reverse_reverse] at hpre
  obtain ⟨t, ht⟩ := hpre
  have hhead : (trimLeft s).head? = some a := by
    rw [← ht]
    cases hc : w.reverse with
    | nil => rw [hc] at h; simp at h
    | cons x xs =>
      rw [hc] at h
      simp only [List.head?_cons, Option.some.injEq] at h
      subst h
      simp [hc]
  exact head?_dropWhile_isWs_false hhead

/-- The last character of a trimmed string is not whitespace. -/
theorem jsTrim_getLast_not_ws {s : Str} {b : Char} (h : (jsTrim s).getLast? = some b) :
    isWs b = false := by
  rw [jsTrim, trimRight, List.getLast?_reverse] at h
  exact head?_dropWhile_isWs_false h

/-- `jsTrim` is idempotent. -/
theorem jsTrim_idem (s : Str) : jsTrim (jsTrim s) = jsTrim s := by
  cases hc : jsTrim s with
  | nil => rfl
  | cons a t =>
    have hhead : (jsTrim s).head? = some a := by rw [hc]; rfl
    have hlast : (jsTrim s).getLast? = some ((a :: t).getLast (by simp)) := by
      rw [hc]; exact (List.getLast?_eq_getLast _ (by simp)).symm
    rw [← hc]
    exact jsTrim_eq_self hhead (jsTrim_head_not_ws hhead) hlast
      (jsTrim_getLast_not_ws hlast)

/-! ## Lemmas about prefixes and last characters -/

theorem isPrefixOf_append_left (p y : Str) : p.isPrefixOf (p ++ y) = true := by
  rw [List.isPrefixOf_iff_prefix]
  exact List.prefix_append p y

theorem checkbox_isPrefixOf (y : Str) :
    (str "- [ ]").isPrefixOf (str "- [ ] " ++ y) = true := by
  have h : str "- [ ] " ++ y = str "- [ ]" ++ (' ' :: y) := rfl
  rw [h, List.isPrefixOf_iff_prefix]
  exact List.prefix_append _ _

theorem getLast?_append_right {l l' : Str} (h : l' ≠ []) :
    (l ++ l').getLast? = l'.getLast? := by
  rw [List.getLast?_append]
  cases hc : l'.getLast? with
  | none => exact absurd (List.getLast?_eq_none_iff.mp hc) h
  | some b => rfl

theorem of_isPrefixOf_dash {t : Str} (h : (str "- ").isPrefixOf t = true) :
    ∃ rest, t = '-' :: ' ' :: rest := by
  rw [List.isPrefixOf_iff_prefix] at h
  obtain ⟨u, hu⟩ := h
  exact ⟨u, hu.symm⟩

theorem of_isPrefixOf_star {t : Str} (h : (str "* ").isPrefixOf t = true) :
    ∃ rest, t = '*' :: ' ' :: rest := by
  rw [List.isPrefixOf_iff_prefix] at h
  obtain ⟨u, hu⟩ := h
  exact ⟨u, hu.symm⟩

/-- A bullet line `- x...` whose trimmed form it is has a non-empty remainder:
otherwise its last character would be the whitespace of the marker. -/
theorem rest_ne_nil_of_trim {c : Str} {x : Char} {rest : Str}
    (ht : jsTrim c = x :: ' ' :: rest) : rest ≠ [] := by
  intro hr
  subst hr
  have : (jsTrim c).getLast? = some ' ' := by rw [ht]; rfl
  have := jsTrim_getLast_not_ws this
  simp [isWs] at this

/-- The output of `formatTodoContent` on non-blank input is non-empty and ends
in a non-whitespace character. -/
theorem formatTodoContent_last {c : Str} (h : jsTrim c ≠ []) :
    formatTodoContent c ≠ []
    ∧ ∀ b, (formatTodoContent c).getLast? = some b → isWs b = false := by
  by_cases h1 : ((str "- [ ]").isPrefixOf (jsTrim c)
      || (str "- [x]").isPrefixOf (jsTrim c)) = true
  · rw [show formatTodoContent c = jsTrim c by simp [formatTodoContent, h1]]
    exact ⟨h, fun b hb => jsTrim_getLast_not_ws hb⟩
  · by_cases h2 : (str "- ").isPrefixOf (jsTrim c) = true
    · obtain ⟨rest, ht⟩ := of_isPrefixOf_dash h2
      have hrest : rest ≠ [] := rest_ne_nil_of_trim ht
      have hf : formatTodoContent c = str "- [ ] " ++ rest := by
        simp only [formatTodoContent, h1, Bool.false_eq_true, if_false, h2, if_true]
        rw [ht]
        rfl
      refine ⟨by simp [hf, hrest], fun b hb => ?_⟩
      rw [hf, getLast?_append_right hrest] at hb
      have : (jsTrim c).getLast? = some b := by
        rw [ht, show ('-' :: ' ' :: rest).getLast? = (str "- " ++ rest).getLast? from rfl,
          getLast?_append_right hrest]
        exact hb
      exact jsTrim_getLast_not_ws this
    · by_cases h3 : (jsTrim c).contains '\n' = true
      · rw [show formatTodoContent c = jsTrim c by
          simp only [formatTodoContent, h1, Bool.false_eq_true, if_false, h2, h3, if_true]]
        exact ⟨h, fun b hb => jsTrim_getLast_not_ws hb⟩
      · have hf : formatTodoContent c = str "- [ ] " ++ jsTrim c := by
          simp only [formatTodoContent, h1, Bool.false_eq_true, if_false, h2, h3]
        refine ⟨by simp [hf, h], fun b hb => ?_⟩
        rw [hf, getLast?_append_right h] at hb
        exact jsTrim_getLast_not_ws hb

/-- The remainder after a two-character bullet marker inherits the non-blank
last character of the trimmed line. -/
theorem lastNotWs_rest {c : Str} {x0 : Char} {rest : Str}
    (ht : jsTrim c = x0 :: ' ' :: rest) (hrest : rest ≠ []) :
    ∀ b, rest.getLast? = some b → isWs b = false := by
  intro b hb
  apply jsTrim_getLast_not_ws (s := c)
  rw [ht, show (x0 :: ' ' :: rest).getLast? = ([x0, ' '] ++ rest).getLast? from rfl,
    getLast?_append_right hrest]
  exact hb

/-- A produced checklist line `- [ ] x` with a solid last character is a
fixpoint of trimming. -/
theorem jsTrim_checkbox_line {x : Str} (hx : x ≠ [])
    (hlast : ∀ b, x.getLast? = some b → isWs b = false) :
    jsTrim (str "- [ ] " ++ x) = str "- [ ] " ++ x := by
  obtain ⟨b, hb⟩ := Option.isSome_iff_exists.mp (List.getLast?_isSome.mpr hx)
  exact jsTrim_eq_self (a := '-') rfl (by decide)
    (by rw [getLast?_append_right hx]; exact hb) (hlast b hb)

/-- `formatTodoContent` leaves a produced checklist line unchanged. -/
theorem formatTodoContent_checkbox_line {x : Str} (hx : x ≠ [])
    (hlast : ∀ b, x.getLast? = some b → isWs b = false) :
    formatTodoContent (str "- [ ] " ++ x) = str "- [ ] " ++ x := by
  have ht := jsTrim_checkbox_line hx hlast
  simp only [formatTodoContent, ht, checkbox_isPrefixOf, Bool.true_or, if_true]

/-- `formatAsTodo` leaves a produced checklist line unchanged. -/
theorem formatAsTodo_checkbox_line {x : Str} (hx : x ≠ [])
    (hlast : ∀ b, x.getLast? = some b → isWs b = false) :
    formatAsTodo (str "- [ ] " ++ x) = str "- [ ] " ++ x := by
  have ht := jsTrim_checkbox_line hx hlast
  simp only [formatAsTodo, ht, checkbox_isPrefixOf, Bool.true_or, if_true,
    List.isEmpty_eq_true, List.append_eq_nil, if_false]
  rw [ite_self]

/-- `formatTodoContent` is idempotent on non-blank input. -/
theorem formatTodoContent_idem {c : Str} (h : jsTrim c ≠ []) :
    formatTodoContent (formatTodoContent c) = formatTodoContent c := by
  have hidem : jsTrim (jsTrim c) = jsTrim c := jsTrim_idem c
  by_cases h1 : ((str "- [ ]").isPrefixOf (jsTrim c)
      || (str "- [x]").isPrefixOf (jsTrim c)) = true
  · have hfc : formatTodoContent c = jsTrim c := by simp [formatTodoContent, h1]
    rw [hfc]
    simp only [formatTodoContent, hidem, h1, if_true]
  · by_cases h2 : (str "- ").isPrefixOf (jsTrim c) = true
    · obtain ⟨rest, ht⟩ := of_isPrefixOf_dash h2
      have hrest : rest ≠ [] := rest_ne_nil_of_trim ht
      have hfc : formatTodoContent c = str "- [ ] " ++ rest := by
        simp only [formatTodoContent, h1, Bool.false_eq_true, if_false, h2, if_true]
        rw [ht]
        rfl
      rw [hfc]
      exact formatTodoContent_checkbox_line hrest (lastNotWs_rest ht hrest)
    · by_cases h3 : (jsTrim c).contains '\n' = true
      · have hfc : formatTodoContent c = jsTrim c := by
          simp only [formatTodoContent, h1, Bool.false_eq_true, if_false, h2, h3, if_true]
        rw [hfc]
        simp only [formatTodoContent, hidem, h1, Bool.false_eq_true, if_false, h2, h3,
          if_true]
      · have hfc : formatTodoContent c = str "- [ ] " ++ jsTrim c := by
          simp only [formatTodoContent, h1, Bool.false_eq_true, if_false, h2, h3]
        rw [hfc]
        exact formatTodoContent_checkbox_line h (fun b hb => jsTrim_getLast_not_ws hb)

/-- `formatAsTodo` is idempotent on every input. -/
theorem formatAsTodo_idem (c : Str) :
    formatAsTodo (formatAsTodo c) = formatAsTodo c := by
  have hidem : jsTrim (jsTrim c) = jsTrim c := jsTrim_idem c
  by_cases h0 : jsTrim c = []
  · have hfc : formatAsTodo c = jsTrim c := by
      simp only [formatAsTodo, h0, List.isEmpty_nil, if_true]
    rw [hfc, h0]
    rfl
  · have h0' : (jsTrim c).isEmpty = false := by
      simpa [List.isEmpty_eq_true] using h0
    by_cases h1 : ((str "- [ ]").isPrefixOf (jsTrim c)
        || (str "- [x]").isPrefixOf (jsTrim c)
        || (str "- [X]").isPrefixOf (jsTrim c)) = true
    · have hfc : formatAsTodo c = jsTrim c := by
        simp only [formatAsTodo, h0', Bool.false_eq_true, if_false, h1, if_true]
      rw [hfc]
      simp only [formatAsTodo, hidem, h0', Bool.false_eq_true, if_false, h1, if_true]
    · by_cases h2 : (str "- ").isPrefixOf (jsTrim c) = true
      · obtain ⟨rest, ht⟩ := of_isPrefixOf_dash h2
        have hrest : rest ≠ [] := rest_ne_nil_of_trim ht
        have hfc : formatAsTodo c = str "- [ ] " ++ rest := by
          simp only [formatAsTodo, h0', Bool.false_eq_true, if_false, h1, h2, if_true]
          rw [ht]
          rfl
        rw [hfc]
        exact formatAsTodo_checkbox_line hrest (lastNotWs_rest ht hrest)
      · by_cases h3 : (str "* ").isPrefixOf (jsTrim c) = true
        · obtain ⟨rest, ht⟩ := of_isPrefixOf_star h3
          have hrest : rest ≠ [] := rest_ne_nil_of_trim ht
          have hfc : formatAsTodo c = str "- [ ] " ++ rest := by
            simp only [formatAsTodo, h0', Bool.false_eq_true, if_false, h1, h2, h3,
              if_true]
            rw [ht]
            rfl
          rw [hfc]
          exact formatAsTodo_checkbox_line hrest (lastNotWs_rest ht hrest)
        · have hfc : formatAsTodo c = str "- [ ] " ++ jsTrim c := by
            simp only [formatAsTodo, h0', Bool.false_eq_true, if_false, h1, h2, h3]
          rw [hfc]
          exact formatAsTodo_checkbox_line h0 (fun b hb => jsTrim_getLast_not_ws hb)

/-! ## Claims C4 and C5: the content normalizers -/

/-- C4 counterexample: on `"* task"` the specified algorithm replaces the
bullet, but the daily coordinator's `formatTodoContent` has no `"* "` branch
and instead prefixes the whole line. -/
theorem formatTodoContent_ne_claimed_normalizer :
    formatTodoContent (str "* task") = str "- [ ] * task"
    ∧ claimedDailyNormalize (str "* task") = str "- [ ] task"
    ∧ formatTodoContent (str "* task") ≠ claimedDailyNormalize (str "* task") := by
  refine ⟨by decide, by decide, by decide⟩

/-- C4 (amended): the daily coordinator's normalizer follows the claimed
branch order, but its checkbox test is case-sensitive (`"- [x]"` only, not
`"- [X]"`) and its bullet branch accepts only `"- "`, not `"* "`. -/
theorem formatTodoContent_branch_spec (x : Str) :
    (((str "- [ ]").isPrefixOf (jsTrim x) || (str "- [x]").isPrefixOf (jsTrim x)) = true →
      formatTodoContent x = jsTrim x)
    ∧ (((str "- [ ]").isPrefixOf (jsTrim x) || (str "- [x]").isPrefixOf (jsTrim x)) = false →
      (str "- ").isPrefixOf (jsTrim x) = true →
      formatTodoContent x = str "- [ ] " ++ (jsTrim x).drop 2)
    ∧ (((str "- [ ]").isPrefixOf (jsTrim x) || (str "- [x]").isPrefixOf (jsTrim x)) = false →
      (str "- ").isPrefixOf (jsTrim x) = false →
      (jsTrim x).contains '\n' = true →
      formatTodoContent x = jsTrim x)
    ∧ (((str "- [ ]").isPrefixOf (jsTrim x) || (str "- [x]").isPrefixOf (jsTrim x)) = false →
      (str "- ").isPrefixOf (jsTrim x) = false →
      (jsTrim x).contains '\n' = false →
      formatTodoContent x = str "- [ ] " ++ jsTrim x) := by
  refine ⟨fun h1 => ?_, fun h1 h2 => ?_, fun h1 h2 h3 => ?_, fun h1 h2 h3 => ?_⟩
  · simp only [formatTodoContent, h1, if_true]
  · simp only [formatTodoContent, h1, Bool.false_eq_true, if_false, h2, if_true]
  · simp only [formatTodoContent, h1, Bool.false_eq_true, if_false, h2, h3, if_true]
  · simp only [formatTodoContent, h1, Bool.false_eq_true, if_false, h2, h3]

/-- C4 witness: the bullet branch of the amended statement, evaluated on
`"- task"`. -/
theorem formatTodoContent_branch_spec_witness :
    ((str "- [ ]").isPrefixOf (jsTrim (str "- task"))
      || (str "- [x]").isPrefixOf (jsTrim (str "- task"))) = false
    ∧ (str "- ").isPrefixOf (jsTrim (str "- task")) = true
    ∧ formatTodoContent (str "- task")
      = str "- [ ] " ++ (jsTrim (str "- task")).drop 2 :=
  ⟨by decide, by decide,
    (formatTodoContent_branch_spec (str "- task")).2.1 (by decide) (by decide)⟩

/-- C5 counterexample: the daily coordinator's normalizer is not idempotent
on blank input — the empty string maps to `"- [ ] "` (trailing space) and
then to `"- [ ]"`. -/
theorem formatTodoContent_not_idempotent_on_blank :
    formatTodoContent (str "") = str "- [ ] "
    ∧ formatTodoContent (formatTodoContent (str "")) = str "- [ ]"
    ∧ formatTodoContent (formatTodoContent (str "")) ≠ formatTodoContent (str "") := by
  refine ⟨by decide, by decide, by decide⟩

/-- C5 (amended): `formatAsTodo` is idempotent on every input, and
`formatTodoContent` is idempotent on every input whose trimmed form is
non-empty (blank inputs are the only exceptions). -/
theorem normalizers_idempotent :
    (∀ x : Str, formatAsTodo (formatAsTodo x) = formatAsTodo x)
    ∧ (∀ x : Str, jsTrim x ≠ [] →
      formatTodoContent (formatTodoContent x) = formatTodoContent x) :=
  ⟨formatAsTodo_idem, fun _ h => formatTodoContent_idem h⟩

/-- C5 witness: idempotence evaluated on a concrete non-blank input. -/
theorem normalizers_idempotent_witness :
    jsTrim (str "买菜") ≠ []
    ∧ formatTodoContent (formatTodoContent (str "买菜")) = formatTodoContent (str "买菜")
    ∧ formatAsTodo (formatAsTodo (str "* a")) = formatAsTodo (str "* a") :=
  ⟨by decide, normalizers_idempotent.2 (str "买菜") (by decide),
    normalizers_idempotent.1 (str "* a")⟩

/-! ## Claims C6, C7, C9, C10: validation, upload failure, annotations,
disabled mode -/

/-- C7: when the upload of local files fails, the whole save aborts before
the locate, create and update steps: the error is surfaced unchanged, the
store is untouched, and the only network operation issued is the upload. -/
theorem dailySave_upload_failure_aborts (env : Env) (e : Str) (state : EditorState)
    (creatorName : Str) :
    (dailyMemoSave env (.error e) state creatorName true).result = .error e
    ∧ (dailyMemoSave env (.error e) state creatorName true).store = env.store
    ∧ (dailyMemoSave env (.error e) state creatorName true).nextId = env.nextId
    ∧ (dailyMemoSave env (.error e) state creatorName true).ops = [.upload] :=
  ⟨rfl, rfl, rfl, rfl⟩

/-- C10: with the enabling flag absent or false, both services return their
empty result and issue no network operation; the store is unchanged. -/
theorem save_disabled_is_noop :
    (∀ (env : Env) (ups : Except Str (List Str)) (state : EditorState) (creatorName : Str),
      dailyMemoSave env ups state creatorName false
        = ⟨.ok ⟨str "", false, false⟩, env.store, env.nextId, []⟩)
    ∧ (∀ (env : Env) (ups : Except Str (List Str)) (state : EditorState) (callerId : Str),
      atomicMemoSave env ups state callerId false
        = ⟨.ok ⟨[], 0, false⟩, env.store, env.nextId, []⟩) :=
  ⟨fun _ _ _ _ => rfl, fun _ _ _ _ => rfl⟩

/-- C9: the annotation add operation sends a create request whose parent is
the given record identity, whose visibility is forced to `PRIVATE` regardless
of anything else, and whose content is the given text unchanged; the created
record carries exactly these fields. -/
theorem addAnnotation_spec (parentId text : Str) (store : List Memo)
    (freshName callerId : Str) (now : Nat) :
    (addAnnotationRequest parentId text).parent = parentId
    ∧ (addAnnotationRequest parentId text).visibility = Visibility.PRIVATE
    ∧ (addAnnotationRequest parentId text).content = text
    ∧ (applyCreateComment store (addAnnotationRequest parentId text)
        freshName callerId now).2.parent = some parentId
    ∧ (applyCreateComment store (addAnnotationRequest parentId text)
        freshName callerId now).2.visibility = Visibility.PRIVATE
    ∧ (applyCreateComment store (addAnnotationRequest parentId text)
        freshName callerId now).2.content = text
    ∧ (applyCreateComment store (addAnnotationRequest parentId text)
        freshName callerId now).1
      = store ++ [(applyCreateComment store (addAnnotationRequest parentId text)
        freshName callerId now).2] :=
  ⟨rfl, rfl, rfl, rfl, rfl, rfl, rfl⟩

/-- C6 counterexample: a whitespace-only save in daily mode is not rejected —
no ValidationError exists in the source.  The call uploads, lists, creates a
container whose checklist line is blank, and reports success. -/
theorem dailySave_blank_content_not_rejected :
    (dailyMemoSave ⟨[], 0, 3600, 0, str "2026-01-02"⟩ (.ok []) ⟨str "   ", [], {}⟩
        (str "users/1") true).ops = [.upload, .list, .create]
    ∧ (dailyMemoSave ⟨[], 0, 3600, 0, str "2026-01-02"⟩ (.ok []) ⟨str "   ", [], {}⟩
        (str "users/1") true).result = .ok ⟨str "memos/0", true, true⟩
    ∧ (dailyMemoSave ⟨[], 0, 3600, 0, str "2026-01-02"⟩ (.ok []) ⟨str "   ", [], {}⟩
        (str "users/1") true).store
      = [{ name := str "memos/0", content := str "# 2026-01-02\n\n- [ ] ",
           creatorId := str "1", createdTs := 3600 }] :=
  ⟨by decide, rfl, by decide⟩

/-- C6 (amended): neither service raises a ValidationError.  The atomic
service silently returns an empty success result with no network activity on
blank content; the daily service performs no blank-content validation at all —
it issues the upload first (and then proceeds to locate and create/update)
and always reports success when the upload succeeds. -/
theorem blank_content_handling :
    (∀ (env : Env) (ups : Except Str (List Str)) (state : EditorState) (callerId : Str),
      jsTrim state.content = [] →
      atomicMemoSave env ups state callerId true
        = ⟨.ok ⟨[], 0, false⟩, env.store, env.nextId, []⟩)
    ∧ (∀ (env : Env) (atts : List Str) (state : EditorState) (creatorName : Str),
      (dailyMemoSave env (.ok atts) state creatorName true).ops.head? = some .upload)
    ∧ (∀ (env : Env) (atts : List Str) (state : EditorState) (creatorName : Str),
      ∃ r, (dailyMemoSave env (.ok atts) state creatorName true).result = .ok r) := by
  refine ⟨fun env ups state callerId h => ?_, fun _ _ _ _ => rfl, fun _ _ _ _ => ⟨_, rfl⟩⟩
  simp [atomicMemoSave, h]

/-- C6 witness: the amended statement evaluated on a whitespace-only editor
state in atomic mode. -/
theorem blank_content_handling_witness :
    jsTrim (str " \t ") = []
    ∧ atomicMemoSave ⟨[], 3, 5, 0, str "2026-01-02"⟩ (.ok []) ⟨str " \t ", [], {}⟩
        (str "1") true
      = ⟨.ok ⟨[], 0, false⟩, [], 3, []⟩ :=
  ⟨by decide,
    blank_content_handling.1 ⟨[], 3, 5, 0, str "2026-01-02"⟩ (.ok []) ⟨str " \t ", [], {}⟩
      (str "1") (by decide)⟩

/-! ## Claim C2: content produced by create and append -/

/-- C2: when no container is found, `save` creates a record whose content is
exactly the title line, a blank line, and the normalized content; when a
container is found, the update's content is exactly the existing content, a
single newline, and the normalized content.  Scenario A and Scenario B of
the specification follow concretely for day key `2026-01-02`. -/
theorem dailySave_content_shapes :
    (∀ (env : Env) (atts : List Str) (state : EditorState) (creatorName : Str),
      findTodayMemo env.store creatorName env.dayStart env.dayKey = none →
      (dailyMemoSave env (.ok atts) state creatorName true).store
        = env.store ++
          [{ name := natName env.nextId
             content := getDailyTitle env.dayKey ++ str "\n\n"
               ++ formatTodoContent state.content
             creatorId := extractUserIdFromName creatorName
             createdTs := env.now
             attachments := state.metadata.attachments ++ atts
             visibility := state.metadata.visibility
             relations := state.metadata.relations
             location := state.metadata.location }])
    ∧ (∀ (env : Env) (atts : List Str) (state : EditorState) (creatorName : Str)
        (tm : Memo),
      findTodayMemo env.store creatorName env.dayStart env.dayKey = some tm →
      (dailyMemoSave env (.ok atts) state creatorName true).store
        = applyUpdateMemo env.store tm.name
            (tm.content ++ str "\n" ++ formatTodoContent state.content)
            (tm.attachments ++ (state.metadata.attachments ++ atts)))
    ∧ (dailyMemoSave ⟨[], 0, 3600, 0, str "2026-01-02"⟩ (.ok [])
        ⟨str "开会讨论需求", [], {}⟩ (str "users/1") true).store
      = [{ name := str "memos/0", content := str "# 2026-01-02\n\n- [ ] 开会讨论需求",
           creatorId := str "1", createdTs := 3600 }]
    ∧ (dailyMemoSave
        ⟨[{ name := str "memos/0", content := str "# 2026-01-02\n\n- [ ] 开会讨论需求",
            creatorId := str "1", createdTs := 3600 }], 1, 3600, 0, str "2026-01-02"⟩
        (.ok []) ⟨str "代码审查", [], {}⟩ (str "users/1") true).store
      = [{ name := str "memos/0",
           content := str "# 2026-01-02\n\n- [ ] 开会讨论需求\n- [ ] 代码审查",
           creatorId := str "1", createdTs := 3600 }] := by
  refine ⟨fun env atts state creatorName h => ?_,
    fun env atts state creatorName tm h => ?_, by decide, by decide⟩
  · simp only [dailyMemoSave, Bool.not_true, Bool.false_eq_true, if_false, h, dailyCommit]
  · simp only [dailyMemoSave, Bool.not_true, Bool.false_eq_true, if_false, h, dailyCommit]

/-- C2 witness: the create branch evaluated for a fresh day with a concrete
environment. -/
theorem dailySave_content_shapes_witness :
    findTodayMemo ([] : List Memo) (str "users/7") 0 (str "2026-02-03") = none
    ∧ (dailyMemoSave ⟨[], 5, 10, 0, str "2026-02-03"⟩ (.ok []) ⟨str "x", [], {}⟩
        (str "users/7") true).store
      = [] ++
        [{ name := natName 5
           content := getDailyTitle (str "2026-02-03") ++ str "\n\n"
             ++ formatTodoContent (str "x")
           creatorId := extractUserIdFromName (str "users/7")
           createdTs := 10
           attachments := [] ++ []
           visibility := Visibility.PRIVATE
           relations := []
           location := none }] :=
  ⟨by decide,
    dailySave_content_shapes.1 ⟨[], 5, 10, 0, str "2026-02-03"⟩ [] ⟨str "x", [], {}⟩
      (str "users/7") (by decide)⟩

/-! ## Claim C8: the grouping engine partitions the records -/

theorem strLeB_total : ∀ x y : Str, strLeB x y = true ∨ strLeB y x = true := by
  intro x
  induction x with
  | nil => intro y; left; rfl
  | cons a as ih =>
    intro y
    cases y with
    | nil => right; rfl
    | cons b bs =>
      by_cases hab : a = b
      · subst hab
        simpa [strLeB] using ih bs
      · rcases lt_or_gt_of_ne hab with hlt | hgt
        · left
          simp [strLeB, hab, hlt]
        · right
          have hba : ¬b = a := fun hc => hab hc.symm
          simp [strLeB, hba, hgt]

theorem strLeB_trans :
    ∀ x y z : Str, strLeB x y = true → strLeB y z = true → strLeB x z = true := by
  intro x
  induction x with
  | nil => intro y z _ _; rfl
  | cons a as ih =>
    intro y z hxy hyz
    cases y with
    | nil => simp [strLeB] at hxy
    | cons b bs =>
      cases z with
      | nil => simp [strLeB] at hyz
      | cons c cs =>
        by_cases hab : a = b
        · subst hab
          rw [strLeB, if_pos rfl] at hxy
          by_cases hbc : a = c
          · subst hbc
            rw [strLeB, if_pos rfl] at hyz ⊢
            exact ih bs cs hxy hyz
          · rw [strLeB, if_neg hbc] at hyz ⊢
            exact hyz
        · rw [strLeB, if_neg hab] at hxy
          have hlt : a < b := of_decide_eq_true hxy
          by_cases hbc : b = c
          · subst hbc
            rw [strLeB, if_neg hab]
            exact decide_eq_true hlt
          · rw [strLeB, if_neg hbc] at hyz
            have hlt' : b < c := of_decide_eq_true hyz
            have hac : a < c := lt_trans hlt hlt'
            rw [strLeB, if_neg (ne_of_lt hac)]
            exact decide_eq_true hac

instance : IsTotal DailyGroup groupRel :=
  ⟨fun a b => strLeB_total b.date a.date⟩

instance : IsTrans DailyGroup groupRel :=
  ⟨fun _ _ _ h1 h2 => strLeB_trans _ _ _ h2 h1⟩

/-- The executable comparison agrees with lexicographic order by code point:
`strLeB x y` holds exactly when `x` lexicographically precedes or equals `y`. -/
theorem strLeB_iff_lex (x : Str) :
    ∀ y : Str, strLeB x y = true ↔ (List.Lex (· < ·) x y ∨ x = y) := by
  induction x with
  | nil =>
    intro y
    cases y with
    | nil => simp [strLeB]
    | cons b bs =>
      simp only [strLeB, true_iff]
      exact Or.inl List.Lex.nil
  | cons a as ih =>
    intro y
    cases y with
    | nil =>
      simp only [strLeB, Bool.false_eq_true, false_iff]
      rintro (hlex | heq)
      · cases hlex
      · cases heq
    | cons b bs =>
      by_cases hab : a = b
      · subst hab
        rw [strLeB, if_pos rfl]
        constructor
        · intro h
          rcases (ih bs).mp h with hlex | heq
          · exact Or.inl (List.Lex.cons hlex)
          · exact Or.inr (by rw [heq])
        · rintro (hlex | heq)
          · cases hlex with
            | cons h => exact (ih bs).mpr (Or.inl h)
            | rel h => exact absurd h (lt_irrefl a)
          · exact (ih bs).mpr (Or.inr (List.cons.inj heq).2)
      · rw [strLeB, if_neg hab]
        constructor
        · intro h
          exact Or.inl (List.Lex.rel (of_decide_eq_true h))
        · rintro (hlex | heq)
          · cases hlex with
            | cons h => exact absurd rfl hab
            | rel h => exact decide_eq_true h
          · exact absurd (List.cons.inj heq).1 hab

theorem insertBucket_get_same (bs : List (Str × List Memo)) (k : Str) (m : Memo) :
    bucketGet (insertBucket bs k m) k = bucketGet bs k ++ [m] := by
  induction bs with
  | nil => simp [insertBucket, bucketGet]
  | cons p rest ih =>
    obtain ⟨k', ms⟩ := p
    by_cases h : k' = k
    · subst h
      simp [insertBucket, bucketGet]
    · simp [insertBucket, bucketGet, h, ih]

theorem insertBucket_get_other (bs : List (Str × List Memo)) {kIns q : Str} (m : Memo)
    (h : q ≠ kIns) : bucketGet (insertBucket bs kIns m) q = bucketGet bs q := by
  have hne : ¬kIns = q := fun hc => h hc.symm
  induction bs with
  | nil => simp [insertBucket, bucketGet, hne]
  | cons p rest ih =>
    obtain ⟨k', ms⟩ := p
    by_cases hk : k' = kIns
    · subst hk
      simp [insertBucket, bucketGet, hne]
    · simp only [insertBucket, hk, if_false]
      by_cases hq : k' = q
      · simp [bucketGet, hq]
      · simp [bucketGet, hq, ih]

theorem bucketsFold_get (key : Memo → Str) (l : List Memo) :
    ∀ (acc : List (Str × List Memo)) (k : Str),
      bucketGet (l.foldl (fun bs m => insertBucket bs (key m) m) acc) k
        = bucketGet acc k ++ l.filter (fun m => key m == k) := by
  induction l with
  | nil =>
    intro acc k
    simp
  | cons m l ih =>
    intro acc k
    rw [List.foldl_cons, ih]
    by_cases h : key m = k
    · rw [List.filter_cons_of_pos (by simpa using h), h, insertBucket_get_same,
        List.append_assoc, List.singleton_append]
    · rw [List.filter_cons_of_neg (by simpa using h),
        insertBucket_get_other acc m (fun hc => h hc.symm)]

theorem bucketGet_eq_nil_of_not_mem {bs : List (Str × List Memo)} {k : Str}
    (h : k ∉ bucketKeys bs) : bucketGet bs k = [] := by
  induction bs with
  | nil => rfl
  | cons p rest ih =>
    obtain ⟨k', ms⟩ := p
    rw [show bucketKeys ((k', ms) :: rest) = k' :: bucketKeys rest from rfl,
      List.mem_cons] at h
    push_neg at h
    have h1 : ¬k' = k := fun hc => h.1 hc.symm
    simp [bucketGet, h1, ih h.2]

theorem insertBucket_keys (bs : List (Str × List Memo)) (k : Str) (m : Memo) :
    bucketKeys (insertBucket bs k m)
      = if k ∈ bucketKeys bs then bucketKeys bs else bucketKeys bs ++ [k] := by
  induction bs with
  | nil => simp [insertBucket, bucketKeys]
  | cons p rest ih =>
    obtain ⟨k', ms⟩ := p
    have hcons : bucketKeys ((k', ms) :: rest) = k' :: bucketKeys rest := rfl
    by_cases h : k' = k
    · subst h
      rw [if_pos (by rw [hcons]; exact List.mem_cons_self _ _)]
      simp [insertBucket, bucketKeys]
    · have hmem : (k ∈ bucketKeys ((k', ms) :: rest)) ↔ k ∈ bucketKeys rest := by
        rw [hcons, List.mem_cons]
        constructor
        · rintro (hc | hc)
          · exact absurd hc.symm h
          · exact hc
        · exact fun hc => Or.inr hc
      have hins : bucketKeys (insertBucket ((k', ms) :: rest) k m)
          = k' :: bucketKeys (insertBucket rest k m) := by
        simp only [insertBucket, h, if_false]
        rfl
      rw [hins, ih]
      by_cases hr : k ∈ bucketKeys rest
      · rw [if_pos hr, if_pos (hmem.mpr hr), hcons]
      · rw [if_neg hr, if_neg (fun hc => hr (hmem.mp hc)), hcons, List.cons_append]

theorem bucketsFold_keys_nodup (key : Memo → Str) (l : List Memo) :
    ∀ acc : List (Str × List Memo), (bucketKeys acc).Nodup →
      (bucketKeys (l.foldl (fun bs m => insertBucket bs (key m) m) acc)).Nodup := by
  induction l with
  | nil =>
    intro acc h
    simpa using h
  | cons m l ih =>
    intro acc h
    rw [List.foldl_cons]
    apply ih
    rw [insertBucket_keys]
    by_cases hm : key m ∈ bucketKeys acc
    · rwa [if_pos hm]
    · rw [if_neg hm]
      rw [List.nodup_append]
      refine ⟨h, List.nodup_singleton _, ?_⟩
      intro x hx hx'
      rw [List.mem_singleton] at hx'
      subst hx'
      exact hm hx

theorem bucketGet_of_mem {bs : List (Str × List Memo)}
    (hnd : (bucketKeys bs).Nodup) : ∀ p ∈ bs, bucketGet bs p.1 = p.2 := by
  induction bs with
  | nil => intro p hp; simp at hp
  | cons q rest ih =>
    intro p hp
    rcases List.mem_cons.mp hp with hq | hr
    · subst hq
      obtain ⟨k', ms⟩ := p
      simp [bucketGet]
    · obtain ⟨k', ms⟩ := q
      have hk : k' ≠ p.1 := by
        intro hc
        have : p.1 ∈ bucketKeys rest := List.mem_map_of_mem Prod.fst hr
        rw [← hc] at this
        exact (List.nodup_cons.mp (by simpa [bucketKeys] using hnd)).1 this
      have htail : (bucketKeys rest).Nodup :=
        (List.nodup_cons.mp (by simpa [bucketKeys] using hnd)).2
      simp [bucketGet, hk, ih htail p hr]

theorem foldl_counts (ms : List Memo) :
    ∀ p : Nat × Nat,
      (ms.foldl (fun acc m => (acc.1 + (countTasks m).1, acc.2 + (countTasks m).2)) p).1
      + (ms.foldl (fun acc m => (acc.1 + (countTasks m).1, acc.2 + (countTasks m).2)) p).2
      = p.1 + p.2 + (ms.map fun m => (countTasks m).1 + (countTasks m).2).sum := by
  induction ms with
  | nil =>
    intro p
    simp
  | cons m ms ih =>
    intro p
    rw [List.map_cons, List.sum_cons]
    have h := ih (p.1 + (countTasks m).1, p.2 + (countTasks m).2)
    rw [show
      List.foldl (fun acc m => (acc.1 + (countTasks m).1, acc.2 + (countTasks m).2))
        p (m :: ms)
      = List.foldl (fun acc m => (acc.1 + (countTasks m).1, acc.2 + (countTasks m).2))
        (p.1 + (countTasks m).1, p.2 + (countTasks m).2) ms from rfl]
    omega

/-- C8: the grouping engine partitions its input — every record lands in the
single group of its day key with input order preserved, group day keys are
pairwise distinct and strictly descending, and each group's two counters sum
to the total number of checklist markers (incomplete plus case-insensitive
complete) across the group's records. -/
theorem useGroupedMemos_partition (fmt : Nat → Str) (nowKey : Str)
    (displayOf fullOf : Str → Str) (memos : List Memo) :
    (∀ g ∈ useGroupedMemos fmt nowKey displayOf fullOf memos,
      g.memos = memos.filter fun m => getMemoDateKey fmt nowKey m == g.date)
    ∧ (∀ m ∈ memos, ∃ g ∈ useGroupedMemos fmt nowKey displayOf fullOf memos,
      m ∈ g.memos)
    ∧ ((useGroupedMemos fmt nowKey displayOf fullOf memos).map (·.date)).Nodup
    ∧ (useGroupedMemos fmt nowKey displayOf fullOf memos).Pairwise
      (fun a b => List.Lex (· < ·) b.date a.date)
    ∧ (∀ g ∈ useGroupedMemos fmt nowKey displayOf fullOf memos,
      g.incompleteCount + g.completeCount
        = (g.memos.map fun m => (countTasks m).1 + (countTasks m).2).sum) := by
  set key := getMemoDateKey fmt nowKey with hkey
  have hbuckets : buildBuckets fmt nowKey memos
      = memos.foldl (fun bs m => insertBucket bs (key m) m) [] := rfl
  have hget : ∀ k, bucketGet (buildBuckets fmt nowKey memos) k
      = memos.filter fun m => key m == k := by
    intro k
    rw [hbuckets, bucketsFold_get]
    rfl
  have hnd : (bucketKeys (buildBuckets fmt nowKey memos)).Nodup := by
    rw [hbuckets]
    exact bucketsFold_keys_nodup key memos [] List.nodup_nil
  have hentry : ∀ p ∈ buildBuckets fmt nowKey memos,
      p.2 = memos.filter fun m => key m == p.1 := by
    intro p hp
    rw [← hget p.1]
    exact (bucketGet_of_mem hnd p hp).symm
  have hmem_groups : ∀ g, g ∈ useGroupedMemos fmt nowKey displayOf fullOf memos ↔
      g ∈ (buildBuckets fmt nowKey memos).map (mkGroup displayOf fullOf) := by
    intro g
    exact List.mem_insertionSort groupRel
  have hdates : List.Perm
      ((useGroupedMemos fmt nowKey displayOf fullOf memos).map (·.date))
      (bucketKeys (buildBuckets fmt nowKey memos)) := by
    have hperm := List.perm_insertionSort groupRel
      ((buildBuckets fmt nowKey memos).map (mkGroup displayOf fullOf))
    have := hperm.map (·.date)
    rw [List.map_map] at this
    exact this
  have hnd_dates :
      ((useGroupedMemos fmt nowKey displayOf fullOf memos).map (·.date)).Nodup :=
    (hdates.nodup_iff).mpr hnd
  refine ⟨?_, ?_, hnd_dates, ?_, ?_⟩
  · intro g hg
    obtain ⟨p, hp, hpg⟩ := List.mem_map.mp ((hmem_groups g).mp hg)
    rw [← hpg]
    exact hentry p hp
  · intro m hm
    have hne : bucketGet (buildBuckets fmt nowKey memos) (key m) ≠ [] := by
      rw [hget]
      intro hc
      have : m ∈ memos.filter fun m' => key m' == key m :=
        List.mem_filter.mpr ⟨hm, by simp⟩
      rw [hc] at this
      simp at this
    have hkmem : key m ∈ bucketKeys (buildBuckets fmt nowKey memos) := by
      by_contra hcon
      exact hne (bucketGet_eq_nil_of_not_mem hcon)
    obtain ⟨p, hp, hpk⟩ := List.mem_map.mp hkmem
    refine ⟨mkGroup displayOf fullOf p, (hmem_groups _).mpr (List.mem_map_of_mem _ hp), ?_⟩
    have : (mkGroup displayOf fullOf p).memos = p.2 := rfl
    rw [this, hentry p hp, hpk]
    exact List.mem_filter.mpr ⟨hm, by simp⟩
  · have hsorted : (useGroupedMemos fmt nowKey displayOf fullOf memos).Pairwise groupRel :=
      List.sorted_insertionSort groupRel _
    have hne : (useGroupedMemos fmt nowKey displayOf fullOf memos).Pairwise
        (fun a b => a.date ≠ b.date) :=
      (List.pairwise_map).mp hnd_dates
    refine (hsorted.and hne).imp fun h => ?_
    rcases (strLeB_iff_lex _ _).mp h.1 with hlex | heq
    · exact hlex
    · exact absurd heq.symm h.2
  · intro g hg
    obtain ⟨p, hp, hpg⟩ := List.mem_map.mp ((hmem_groups g).mp hg)
    rw [← hpg]
    have h1 : (mkGroup displayOf fullOf p).incompleteCount
        = (p.2.foldl (fun acc m => (acc.1 + (countTasks m).1, acc.2 + (countTasks m).2))
          (0, 0)).1 := rfl
    have h2 : (mkGroup displayOf fullOf p).completeCount
        = (p.2.foldl (fun acc m => (acc.1 + (countTasks m).1, acc.2 + (countTasks m).2))
          (0, 0)).2 := rfl
    have h3 : (mkGroup displayOf fullOf p).memos = p.2 := rfl
    rw [h1, h2, h3]
    have := foldl_counts p.2 (0, 0)
    omega

/-- C8 witness: the grouping engine evaluated on `sampleMemos` — today's
group is present and holds exactly the records filtered to its day key. -/
theorem useGroupedMemos_partition_witness :
    sampleGroup ∈ useGroupedMemos (fun _ => str "2026-01-01") (str "2026-01-02")
      (fun k => k) (fun k => k) sampleMemos
    ∧ sampleGroup.memos = sampleMemos.filter fun m =>
      getMemoDateKey (fun _ => str "2026-01-01") (str "2026-01-02") m == sampleGroup.date :=
  ⟨by decide,
    (useGroupedMemos_partition (fun _ => str "2026-01-01") (str "2026-01-02")
      (fun k => k) (fun k => k) sampleMemos).1 sampleGroup (by decide)⟩

/-! ## Claim C3: the duplicate-container race -/

/-- The two phases used by the race model compose to the real `save`: with a
successful upload, `save` is exactly locate followed by commit. -/
theorem dailySave_eq_commit_of_locate :
    ∀ (env : Env) (atts : List Str) (state : EditorState) (creatorName : Str),
      (dailyMemoSave env (.ok atts) state creatorName true).store
        = (dailyCommit env creatorName state (state.metadata.attachments ++ atts)
            (findTodayMemo env.store creatorName env.dayStart env.dayKey)).2.1 :=
  fun _ _ _ _ => rfl

/-- C3: the source has no key-scoped coordination, so two saves for the same
creator and day that both pass their locate step before either commits both
take the create path: the racy schedule ends with two containers for the day,
while the same two saves run sequentially end with one. -/
theorem racyRun_creates_two_containers :
    (containersFor (racyRun ⟨[], 0, 3600, 0, str "2026-01-02"⟩ (str "users/1")
        (str "任务甲") (str "任务乙")).store
      (str "1") (str "2026-01-02") 0).length = 2
    ∧ (containersFor
        (stepSave (str "users/1")
          (stepSave (str "users/1") ⟨[], 0, 3600, 0, str "2026-01-02"⟩ (str "任务甲"))
          (str "任务乙")).store
        (str "1") (str "2026-01-02") 0).length = 1 :=
  ⟨by decide, by decide⟩

/-! ## Claim C1: N sequential saves accumulate in one container -/

theorem joinLines_append_single (ls : List Str) (l : Str) (h : ls ≠ []) :
    joinLines (ls ++ [l]) = joinLines ls ++ '\n' :: l := by
  induction ls with
  | nil => exact absurd rfl h
  | cons x ls ih =>
    cases ls with
    | nil => rfl
    | cons y ls' =>
      show x ++ '\n' :: joinLines ((y :: ls') ++ [l])
        = (x ++ '\n' :: joinLines (y :: ls')) ++ '\n' :: l
      rw [ih (by simp), List.append_assoc, List.cons_append]

theorem joinLines_ne_nil_last (ls : List Str) (h : ls ≠ [])
    (helem : ∀ l ∈ ls, l ≠ [] ∧ ∀ b, l.getLast? = some b → isWs b = false) :
    joinLines ls ≠ [] ∧ ∀ b, (joinLines ls).getLast? = some b → isWs b = false := by
  induction ls with
  | nil => exact absurd rfl h
  | cons x ls ih =>
    cases ls with
    | nil => exact helem x (List.mem_singleton_self x)
    | cons y ls' =>
      have hIH := ih (by simp) fun l hl => helem l (List.mem_cons_of_mem _ hl)
      constructor
      · show x ++ '\n' :: joinLines (y :: ls') ≠ []
        simp
      · intro b hb
        rw [show joinLines (x :: y :: ls') = x ++ '\n' :: joinLines (y :: ls') from rfl,
          getLast?_append_right (List.cons_ne_nil _ _),
          show ('\n' :: joinLines (y :: ls')) = ['\n'] ++ joinLines (y :: ls') from rfl,
          getLast?_append_right hIH.1] at hb
        exact hIH.2 b hb

/-- The accumulated container content is its own trim: it starts with the
title's `#` and ends with the last checklist line's solid character. -/
theorem seqContainer_content_trim (env0 : Env) (creatorName : Str) (processed : List Str)
    (hproc : processed ≠ []) (hbp : ∀ x ∈ processed, jsTrim x ≠ []) :
    jsTrim (seqContainer env0 creatorName processed).content
      = (seqContainer env0 creatorName processed).content := by
  have hbody := joinLines_ne_nil_last (processed.map formatTodoContent)
    (by simpa using hproc)
    (by
      intro l hl
      obtain ⟨c, hc, rfl⟩ := List.mem_map.mp hl
      exact formatTodoContent_last (hbp c hc))
  obtain ⟨b, hb⟩ := Option.isSome_iff_exists.mp (List.getLast?_isSome.mpr hbody.1)
  refine jsTrim_eq_self (a := '#') (b := b) rfl (by decide) ?_ (hbody.2 b hb)
  show ((getDailyTitle env0.dayKey ++ str "\n\n")
    ++ joinLines (processed.map formatTodoContent)).getLast? = some b
  rw [getLast?_append_right hbody.1]
  exact hb

theorem isDailyMemoForDate_seqContainer (env0 : Env) (creatorName : Str)
    (processed : List Str) (hproc : processed ≠ [])
    (hbp : ∀ x ∈ processed, jsTrim x ≠ []) :
    isDailyMemoForDate (seqContainer env0 creatorName processed) env0.dayKey = true := by
  simp only [isDailyMemoForDate,
    seqContainer_content_trim env0 creatorName processed hproc hbp]
  show (getDailyTitle env0.dayKey).isPrefixOf
    ((getDailyTitle env0.dayKey ++ str "\n\n")
      ++ joinLines (processed.map formatTodoContent)) = true
  rw [List.append_assoc]
  exact isPrefixOf_append_left _ _

theorem containersFor_append (A B : List Memo) (u k : Str) (s : Nat) :
    containersFor (A ++ B) u k s = containersFor A u k s ++ containersFor B u k s := by
  simp only [containersFor, listMemos, List.filter_append]

theorem containersFor_seqContainer (env0 : Env) (creatorName : Str) (processed : List Str)
    (hlo : env0.dayStart ≤ env0.now) (hhi : env0.now < env0.dayStart + 86400)
    (hproc : processed ≠ []) (hbp : ∀ x ∈ processed, jsTrim x ≠ []) :
    containersFor [seqContainer env0 creatorName processed]
      (extractUserIdFromName creatorName) env0.dayKey env0.dayStart
      = [seqContainer env0 creatorName processed] := by
  have hsniff := isDailyMemoForDate_seqContainer env0 creatorName processed hproc hbp
  have h1 : ((seqContainer env0 creatorName processed).creatorId
      == extractUserIdFromName creatorName) = true :=
    beq_self_eq_true (extractUserIdFromName creatorName)
  have h2 : decide (env0.dayStart ≤ (seqContainer env0 creatorName processed).createdTs)
      = true := decide_eq_true hlo
  have h3 : decide ((seqContainer env0 creatorName processed).createdTs
      < env0.dayStart + 86400) = true := decide_eq_true hhi
  simp only [containersFor, listMemos, List.filter_cons, List.filter_nil, h1, h2, h3,
    Bool.and_self, Bool.and_true, if_true, hsniff]

theorem findTodayMemo_eq_head (store : List Memo) (creatorName : Str) (s : Nat) (k : Str)
    (huser : extractUserIdFromName creatorName ≠ []) :
    findTodayMemo store creatorName s k
      = (containersFor store (extractUserIdFromName creatorName) k s).head? := by
  have hne : (extractUserIdFromName creatorName).isEmpty ≠ true := by
    intro hc
    exact huser (List.isEmpty_eq_true.mp hc)
  simp only [findTodayMemo, if_neg hne, containersFor]
  exact (List.filter_head? _ _).symm

theorem append_line (T B F : Str) :
    (T ++ B) ++ str "\n" ++ F = T ++ (B ++ '\n' :: F) := by
  rw [List.append_assoc, List.append_assoc]
  rfl

theorem applyUpdate_append (A : List Memo) (M : Memo) (X : Str) (ats : List Str)
    (hfreshA : ∀ m ∈ A, m.name ≠ M.name) :
    applyUpdateMemo (A ++ [M]) M.name X ats
      = A ++ [{ M with content := X, attachments := ats }] := by
  rw [applyUpdateMemo, List.map_append]
  have h1 : A.map (fun m =>
      if m.name = M.name then { m with content := X, attachments := ats } else m) = A := by
    have hcong : ∀ m ∈ A,
        (if m.name = M.name then { m with content := X, attachments := ats } else m)
        = id m := fun m hm => if_neg (hfreshA m hm)
    rw [List.map_congr_left hcong, List.map_id]
  rw [h1]
  simp

/-- The create step: when no container exists, one save appends exactly the
new container to the store and bumps the id counter. -/
theorem stepSave_create (env : Env) (creatorName : Str) (c : Str)
    (huser : extractUserIdFromName creatorName ≠ [])
    (hnoc : containersFor env.store (extractUserIdFromName creatorName)
      env.dayKey env.dayStart = []) :
    stepSave creatorName env c
      = { env with
          store := env.store ++ [seqContainer env creatorName [c]]
          nextId := env.nextId + 1 } := by
  have hfind : findTodayMemo env.store creatorName env.dayStart env.dayKey = none := by
    rw [findTodayMemo_eq_head env.store creatorName env.dayStart env.dayKey huser, hnoc]
    rfl
  simp only [stepSave, dailyMemoSave, Bool.not_true, Bool.false_eq_true, if_false,
    hfind, dailyCommit]
  simp [mkDailyState, seqContainer, joinLines]

/-- The append step: with the accumulated container in place, one save
rewrites exactly that container, appending one normalized line. -/
theorem stepSave_append (env0 : Env) (creatorName c : Str) (processed : List Str)
    (huser : extractUserIdFromName creatorName ≠ [])
    (hnoc : containersFor env0.store (extractUserIdFromName creatorName)
      env0.dayKey env0.dayStart = [])
    (hfresh : ∀ m ∈ env0.store, m.name ≠ natName env0.nextId)
    (hlo : env0.dayStart ≤ env0.now) (hhi : env0.now < env0.dayStart + 86400)
    (hproc : processed ≠ []) (hbp : ∀ x ∈ processed, jsTrim x ≠ []) :
    stepSave creatorName
      ⟨env0.store ++ [seqContainer env0 creatorName processed], env0.nextId + 1,
        env0.now, env0.dayStart, env0.dayKey⟩ c
      = ⟨env0.store ++ [seqContainer env0 creatorName (processed ++ [c])],
          env0.nextId + 1, env0.now, env0.dayStart, env0.dayKey⟩ := by
  have hfind : findTodayMemo (env0.store ++ [seqContainer env0 creatorName processed])
      creatorName env0.dayStart env0.dayKey
      = some (seqContainer env0 creatorName processed) := by
    rw [findTodayMemo_eq_head _ _ _ _ huser, containersFor_append, hnoc,
      containersFor_seqContainer env0 creatorName processed hlo hhi hproc hbp]
    rfl
  have hcontent : ((getDailyTitle env0.dayKey ++ str "\n\n")
        ++ joinLines (processed.map formatTodoContent)) ++ str "\n"
        ++ formatTodoContent c
      = getDailyTitle env0.dayKey ++ str "\n\n"
        ++ joinLines ((processed ++ [c]).map formatTodoContent) := by
    have hmap : (processed ++ [c]).map formatTodoContent
        = processed.map formatTodoContent ++ [formatTodoContent c] := by
      rw [List.map_append]
      rfl
    rw [hmap, joinLines_append_single _ _ (by simpa using hproc)]
    exact append_line _ _ _
  have hfreshM : ∀ m ∈ env0.store, m.name ≠ (seqContainer env0 creatorName processed).name :=
    hfresh
  simp only [stepSave, dailyMemoSave, Bool.not_true, Bool.false_eq_true, if_false,
    hfind, dailyCommit, mkDailyState]
  rw [applyUpdate_append _ _ _ _ hfreshM]
  have hmemo : ({ seqContainer env0 creatorName processed with
      content := (seqContainer env0 creatorName processed).content ++ str "\n"
        ++ formatTodoContent c
      attachments := (seqContainer env0 creatorName processed).attachments
        ++ ([] ++ []) } : Memo)
      = seqContainer env0 creatorName (processed ++ [c]) := by
    have := congrArg (fun X : Str =>
      ({ seqContainer env0 creatorName processed with
        content := X
        attachments := (seqContainer env0 creatorName processed).attachments
          ++ ([] ++ []) } : Memo)) hcontent
    exact this
  rw [hmemo]

/-- The invariant carried across the remaining saves: the accumulated
container absorbs each further content in call order. -/
theorem runSaves_inv (env0 : Env) (creatorName : Str)
    (huser : extractUserIdFromName creatorName ≠ [])
    (hnoc : containersFor env0.store (extractUserIdFromName creatorName)
      env0.dayKey env0.dayStart = [])
    (hfresh : ∀ m ∈ env0.store, m.name ≠ natName env0.nextId)
    (hlo : env0.dayStart ≤ env0.now) (hhi : env0.now < env0.dayStart + 86400) :
    ∀ (cs processed : List Str), processed ≠ [] →
      (∀ x ∈ processed, jsTrim x ≠ []) → (∀ x ∈ cs, jsTrim x ≠ []) →
      runSaves creatorName
        ⟨env0.store ++ [seqContainer env0 creatorName processed], env0.nextId + 1,
          env0.now, env0.dayStart, env0.dayKey⟩ cs
      = ⟨env0.store ++ [seqContainer env0 creatorName (processed ++ cs)],
          env0.nextId + 1, env0.now, env0.dayStart, env0.dayKey⟩ := by
  intro cs
  induction cs with
  | nil =>
    intro processed hproc hbp hbc
    simp [runSaves]
  | cons c cs ih =>
    intro processed hproc hbp hbc
    show List.foldl (stepSave creatorName) _ (c :: cs) = _
    rw [List.foldl_cons,
      stepSave_append env0 creatorName c processed huser hnoc hfresh hlo hhi hproc hbp]
    have hx := ih (processed ++ [c]) (by simp)
      (fun x hx => by
        rcases List.mem_append.mp hx with h | h
        · exact hbp x h
        · rw [List.mem_singleton] at h
          rw [h]
          exact hbc c (List.mem_cons_self _ _))
      (fun x hx => hbc x (List.mem_cons_of_mem _ hx))
    rw [show (processed ++ [c]) ++ cs = processed ++ c :: cs from by simp] at hx
    exact hx

/-- C1: for any creator and day, starting from a store with no container for
that day, N non-overlapping saves of non-blank contents leave exactly one
container for the day, whose content is the title line, a blank line, and the
N normalized checklist lines joined by newlines in call order. -/
theorem dailySave_sequential_one_container
    (env : Env) (creatorName : Str) (contents : List Str)
    (huser : extractUserIdFromName creatorName ≠ [])
    (hnoc : containersFor env.store (extractUserIdFromName creatorName)
      env.dayKey env.dayStart = [])
    (hfresh : ∀ m ∈ env.store, m.name ≠ natName env.nextId)
    (hlo : env.dayStart ≤ env.now) (hhi : env.now < env.dayStart + 86400)
    (hne : contents ≠ []) (hblank : ∀ c ∈ contents, jsTrim c ≠ []) :
    containersFor (runSaves creatorName env contents).store
      (extractUserIdFromName creatorName) env.dayKey env.dayStart
      = [seqContainer env creatorName contents] := by
  obtain ⟨c, cs, rfl⟩ : ∃ c cs, contents = c :: cs := by
    cases contents with
    | nil => exact absurd rfl hne
    | cons c cs => exact ⟨c, cs, rfl⟩
  have hblank' : ∀ x ∈ [c] ++ cs, jsTrim x ≠ [] := hblank
  have hrun : runSaves creatorName env (c :: cs)
      = ⟨env.store ++ [seqContainer env creatorName ([c] ++ cs)], env.nextId + 1,
          env.now, env.dayStart, env.dayKey⟩ := by
    show List.foldl (stepSave creatorName) env (c :: cs) = _
    rw [List.foldl_cons, stepSave_create env creatorName c huser hnoc]
    exact runSaves_inv env creatorName huser hnoc hfresh hlo hhi cs [c]
      (List.cons_ne_nil _ _)
      (fun x hx => by
        rw [List.mem_singleton] at hx
        rw [hx]
        exact hblank c (List.mem_cons_self _ _))
      (fun x hx => hblank x (List.mem_cons_of_mem _ hx))
  rw [hrun]
  show containersFor (env.store ++ [seqContainer env creatorName ([c] ++ cs)])
    (extractUserIdFromName creatorName) env.dayKey env.dayStart = _
  rw [containersFor_append, hnoc,
    containersFor_seqContainer env creatorName ([c] ++ cs) hlo hhi
      (by simp) hblank']
  rfl

/-- C1 witness: two sequential saves on an empty store for day `2026-01-02`
leave exactly the accumulated container. -/
theorem dailySave_sequential_one_container_witness :
    containersFor (runSaves (str "users/1") ⟨[], 0, 3600, 0, str "2026-01-02"⟩
        [str "整理桌面", str "写周报"]).store
      (extractUserIdFromName (str "users/1")) (str "2026-01-02") 0
      = [seqContainer ⟨[], 0, 3600, 0, str "2026-01-02"⟩ (str "users/1")
          [str "整理桌面", str "写周报"]] :=
  dailySave_sequential_one_container ⟨[], 0, 3600, 0, str "2026-01-02"⟩
    (str "users/1") [str "整理桌面", str "写周报"] (by decide) (by decide)
    (by decide) (by decide) (by decide) (by decide) (by decide)

end Memos2
